/-
Verification of the annotation-driven audio anonymization core.

This file shallowly embeds the Python source of the platform:
  * `backend/models.py`      — the annotation value type and `normalize_annotations`
  * `backend/audio_processing.py` — surrogate resolution and the splicing engine
  * `scripts/voice_modification.py` — the voice-disguise DSP chain

Modelling conventions:
  * Python floats holding second-offsets are embedded as exact rationals `ℚ`;
    `int(x * 1000)` (truncation toward zero) is `msOfSec`.
  * A pydub `AudioSegment` is embedded as a `List ℤ` at millisecond
    granularity (one list element per millisecond of audio); slicing follows
    Python slice semantics.
  * The filesystem catalog of surrogate clips is a function from a directory
    path (a list of path segments) to the directory's entry names, plus a
    partial map from full file paths to decoded audio.
  * Randomness (`random.choice`) is a parameter `choose : List FsPath → FsPath`;
    fallible operations return `Except`/`Option`.
-/
import Mathlib

set_option maxRecDepth 100000

/-- Python truthiness for `a or b` on strings: the empty string is falsy. -/
def pyStrOr (a b : String) : String := if a = "" then b else a

/-- Python truthiness for `a or b` on optional strings: `None` and `""` are falsy. -/
def pyOptStrOr (a b : Option String) : Option String :=
  match a with
  | none => b
  | some s => if s = "" then b else some s

/-- The annotation value type of `backend/models.py` (`@dataclass Annotation`). -/
structure Annotation where
  start_sec : ℚ
  end_sec : ℚ
  gender : String
  label : Option String := none
  language : String := "luganda"
deriving DecidableEq

/-- The merge step of `normalize_annotations` (models.py lines 33-39): keep the
earlier start, take the larger end, and let the later span's `gender`/`label`/
`language` win when truthy (Python `or`). -/
def mergeOverlap (last new : Annotation) : Annotation :=
  { start_sec := last.start_sec
    end_sec := max last.end_sec new.end_sec
    gender := pyStrOr new.gender last.gender
    label := pyOptStrOr new.label last.label
    language := pyStrOr new.language last.language }

/-- The left-to-right sweep of `normalize_annotations`: `cur` is the last
accepted span (`merged[-1]` in the Python loop). -/
def sweepMerge (cur : Annotation) : List Annotation → List Annotation
  | [] => [cur]
  | a :: rest =>
    if a.start_sec ≤ cur.end_sec then sweepMerge (mergeOverlap cur a) rest
    else cur :: sweepMerge a rest

/-- Entry into the sweep with an initially empty `merged` list. -/
def mergeSweep : List Annotation → List Annotation
  | [] => []
  | a :: rest => sweepMerge a rest

/-- Comparison key of the Python `cleaned.sort(key=lambda a: a.start_sec)`. -/
def annLE (a b : Annotation) : Prop := a.start_sec ≤ b.start_sec

instance : DecidableRel annLE :=
  fun a b => inferInstanceAs (Decidable (a.start_sec ≤ b.start_sec))

instance : IsTotal Annotation annLE := ⟨fun a b => le_total a.start_sec b.start_sec⟩

instance : IsTrans Annotation annLE := ⟨fun _ _ _ h h2 => le_trans h h2⟩

/-- `normalize_annotations` from `backend/models.py`: drop empty/negative
spans, stable-sort by start (Python `list.sort` is stable; `insertionSort`
is the stable sort by the same key), then sweep-merge overlapping spans. -/
def normalize_annotations (l : List Annotation) : List Annotation :=
  mergeSweep (List.insertionSort annLE (l.filter (fun a => decide (a.end_sec > a.start_sec))))

/-- Spec reading of the merge policy: metadata is taken from the later span
when present (a non-null, non-empty value), else retained from the earlier. -/
def specMerge (earlier later : Annotation) : Annotation :=
  { start_sec := earlier.start_sec
    end_sec := max earlier.end_sec later.end_sec
    gender := if later.gender ≠ "" then later.gender else earlier.gender
    label :=
      match later.label with
      | some s => if s ≠ "" then some s else earlier.label
      | none => earlier.label
    language := if later.language ≠ "" then later.language else earlier.language }

/-- Spec reading of the sweep, phrased as a left fold that keeps the reversed
list of accepted spans and merges a new span into the last accepted one
whenever its start is ≤ the last span's end. -/
def specSweepStep (acc : List Annotation) (s : Annotation) : List Annotation :=
  match acc with
  | [] => [s]
  | last :: revRest =>
    if s.start_sec ≤ last.end_sec then specMerge last s :: revRest
    else s :: last :: revRest

/-- Spec reading of the whole sweep. -/
def specSweep (l : List Annotation) : List Annotation :=
  (l.foldl specSweepStep []).reverse

/-- Normalization as the spec describes it: drop every annotation with
`end <= start`, stably sort the rest by start ascending, then sweep. -/
def specNormalize (l : List Annotation) : List Annotation :=
  specSweep (List.insertionSort annLE (l.filter (fun a => decide (¬ a.end_sec ≤ a.start_sec))))

theorem filter_drop_eq (l : List Annotation) :
    l.filter (fun a => decide (¬ a.end_sec ≤ a.start_sec)) =
      l.filter (fun a => decide (a.end_sec > a.start_sec)) := by
  induction l with
  | nil => rfl
  | cons a t ih => simp only [List.filter_cons, ih, not_le, gt_iff_lt]

theorem specMerge_eq_mergeOverlap (a b : Annotation) :
    specMerge a b = mergeOverlap a b := by
  unfold specMerge mergeOverlap pyStrOr pyOptStrOr
  cases hb : b.label with
  | none => by_cases h1 : b.gender = "" <;> by_cases h2 : b.language = "" <;> simp [h1, h2]
  | some s =>
    by_cases h1 : b.gender = "" <;> by_cases h2 : b.language = "" <;>
      by_cases h3 : s = "" <;> simp [h1, h2, h3]

theorem foldl_specSweep (l : List Annotation) :
    ∀ (cur : Annotation) (racc : List Annotation),
      (l.foldl specSweepStep (cur :: racc)).reverse = racc.reverse ++ sweepMerge cur l := by
  induction l with
  | nil => intro cur racc; simp [sweepMerge]
  | cons s t ih =>
    intro cur racc
    by_cases h : s.start_sec ≤ cur.end_sec
    · simp only [List.foldl_cons, specSweepStep, if_pos h, ih, sweepMerge, if_pos h,
        specMerge_eq_mergeOverlap]
    · simp only [List.foldl_cons, specSweepStep, if_neg h, ih, sweepMerge, if_neg h]
      simp [List.append_assoc]

theorem specSweep_eq_mergeSweep (l : List Annotation) : specSweep l = mergeSweep l := by
  cases l with
  | nil => rfl
  | cons a t =>
    show ((a :: t).foldl specSweepStep []).reverse = sweepMerge a t
    have := foldl_specSweep t a []
    simpa [specSweepStep] using this

theorem specNormalize_eq (l : List Annotation) : specNormalize l = normalize_annotations l := by
  unfold specNormalize normalize_annotations
  rw [filter_drop_eq, specSweep_eq_mergeSweep]

/-- C1: `normalize_annotations` is exactly the spec's normalization algorithm:
drop spans with `end <= start`, stably sort by start, sweep left-to-right
merging a span into the last accepted span whenever its start is ≤ the last
span's end, keeping the earlier start, the max end, and later-wins-if-present
metadata. On empty input it returns the empty list; the overlapping example
`[(1.0,2.0,M,PERSON),(1.5,3.0,F,LOCATION)]` yields the single span `(1.0,3.0)`
with gender/label from the second input, and a zero-duration annotation
normalizes to the empty list. -/
theorem claim_C1_normalize_algorithm :
    (∀ l : List Annotation, normalize_annotations l = specNormalize l)
    ∧ normalize_annotations [] = []
    ∧ normalize_annotations
        [⟨1, 2, "M", some "PERSON", "luganda"⟩, ⟨3/2, 3, "F", some "LOCATION", "luganda"⟩]
        = [⟨1, 3, "F", some "LOCATION", "luganda"⟩]
    ∧ normalize_annotations [⟨1/2, 1/2, "M", some "PERSON", "luganda"⟩] = [] := by
  refine ⟨fun l => (specNormalize_eq l).symm, rfl, ?_, ?_⟩
  · with_unfolding_all decide
  · with_unfolding_all decide

/-- A span retained by normalization has positive duration. -/
def ValidAnn (a : Annotation) : Prop := a.start_sec < a.end_sec

/-- Output spans are strictly separated: each ends before the next starts. -/
def annSepRel (a b : Annotation) : Prop := a.end_sec < b.start_sec

theorem mergeOverlap_valid {cur a : Annotation} (h : ValidAnn cur) :
    ValidAnn (mergeOverlap cur a) :=
  lt_of_lt_of_le h (le_max_left _ _)

theorem sweepMerge_valid {cur : Annotation} {l : List Annotation} (hc : ValidAnn cur)
    (hl : ∀ a ∈ l, ValidAnn a) : ∀ b ∈ sweepMerge cur l, ValidAnn b := by
  induction l generalizing cur with
  | nil => intro b hb; simp [sweepMerge] at hb; simpa [hb] using hc
  | cons s t ih =>
    intro b hb
    unfold sweepMerge at hb
    by_cases h : s.start_sec ≤ cur.end_sec
    · rw [if_pos h] at hb
      exact ih (mergeOverlap_valid hc) (fun a ha => hl a (List.mem_cons_of_mem _ ha)) b hb
    · rw [if_neg h] at hb
      rcases List.mem_cons.mp hb with rfl | hb
      · exact hc
      · exact ih (hl s (List.mem_cons_self _ _)) (fun a ha => hl a (List.mem_cons_of_mem _ ha)) b hb

theorem sweepMerge_head (cur : Annotation) (l : List Annotation) :
    ∃ b t, sweepMerge cur l = b :: t ∧ b.start_sec = cur.start_sec := by
  induction l generalizing cur with
  | nil => exact ⟨cur, [], rfl, rfl⟩
  | cons s t ih =>
    by_cases h : s.start_sec ≤ cur.end_sec
    · obtain ⟨b, t', hb, hs⟩ := ih (mergeOverlap cur s)
      exact ⟨b, t', by simpa [sweepMerge, h] using hb, by simpa [mergeOverlap] using hs⟩
    · exact ⟨cur, sweepMerge s t, by simp [sweepMerge, h], rfl⟩

theorem sweepMerge_chain {cur : Annotation} {l : List Annotation}
    (hmin : ∀ a ∈ l, cur.start_sec ≤ a.start_sec) (hs : List.Sorted annLE l) :
    List.Chain' annSepRel (sweepMerge cur l) := by
  induction l generalizing cur with
  | nil => simp [sweepMerge]
  | cons s t ih =>
    unfold sweepMerge
    by_cases h : s.start_sec ≤ cur.end_sec
    · rw [if_pos h]
      refine ih (fun a ha => ?_) hs.tail
      have h1 : cur.start_sec ≤ s.start_sec := hmin s (List.mem_cons_self _ _)
      have h2 : s.start_sec ≤ a.start_sec := List.rel_of_sorted_cons hs a ha
      simpa [mergeOverlap, annLE] using le_trans h1 h2
    · rw [if_neg h]
      obtain ⟨b, t', hb, hstart⟩ := sweepMerge_head s t
      rw [hb]
      refine List.Chain'.cons ?_ ?_
      · show annSepRel cur b
        unfold annSepRel
        rw [hstart]
        exact lt_of_not_ge h
      · rw [← hb]
        exact ih (fun a ha => List.rel_of_sorted_cons hs a ha) hs.tail

theorem normalize_valid (l : List Annotation) :
    ∀ b ∈ normalize_annotations l, ValidAnn b := by
  unfold normalize_annotations
  cases hs : List.insertionSort annLE
      (l.filter (fun a => decide (a.end_sec > a.start_sec))) with
  | nil => simp [mergeSweep]
  | cons a t =>
    have hmem : ∀ b ∈ a :: t, ValidAnn b := by
      intro b hb
      rw [← hs] at hb
      have := (List.mem_insertionSort annLE).mp hb
      have := List.of_mem_filter this
      simpa [ValidAnn] using of_decide_eq_true this
    exact sweepMerge_valid (hmem a (List.mem_cons_self _ _))
      (fun b hb => hmem b (List.mem_cons_of_mem _ hb))

theorem normalize_chain (l : List Annotation) :
    List.Chain' annSepRel (normalize_annotations l) := by
  unfold normalize_annotations
  have hsorted := List.sorted_insertionSort annLE
    (l.filter (fun a => decide (a.end_sec > a.start_sec)))
  cases hs : List.insertionSort annLE
      (l.filter (fun a => decide (a.end_sec > a.start_sec))) with
  | nil => simp [mergeSweep]
  | cons a t =>
    rw [hs] at hsorted
    exact sweepMerge_chain (fun b hb => List.rel_of_sorted_cons hsorted b hb) hsorted.tail

theorem sweepMerge_of_sep {cur : Annotation} {l : List Annotation}
    (h : List.Chain' annSepRel (cur :: l)) : sweepMerge cur l = cur :: l := by
  induction l generalizing cur with
  | nil => rfl
  | cons s t ih =>
    have h1 : annSepRel cur s := (List.chain'_cons.mp h).1
    have h2 : List.Chain' annSepRel (s :: t) := (List.chain'_cons.mp h).2
    unfold sweepMerge
    rw [if_neg (not_le.mpr h1), ih h2]

theorem chain_le_of_chain_sep {l : List Annotation} (hv : ∀ a ∈ l, ValidAnn a)
    (hc : List.Chain' annSepRel l) : List.Chain' annLE l := by
  induction l with
  | nil => simp
  | cons a t ih =>
    cases t with
    | nil => simp
    | cons b u =>
      rw [List.chain'_cons] at hc ⊢
      refine ⟨?_, ih (fun x hx => hv x (List.mem_cons_of_mem _ hx)) hc.2⟩
      have hva : ValidAnn a := hv a (List.mem_cons_self _ _)
      exact le_of_lt (lt_trans hva hc.1)

/-- C2: normalization is idempotent — normalizing an already-normalized list
returns it unchanged, so `normalize (normalize L) = normalize L` for every
finite annotation list `L`. -/
theorem claim_C2_normalize_idempotent (l : List Annotation) :
    normalize_annotations (normalize_annotations l) = normalize_annotations l := by
  have hv := normalize_valid l
  have hc := normalize_chain l
  have hfilter : (normalize_annotations l).filter
      (fun a => decide (a.end_sec > a.start_sec)) = normalize_annotations l :=
    List.filter_eq_self.mpr (fun a ha => decide_eq_true (hv a ha))
  have hsorted : List.Sorted annLE (normalize_annotations l) :=
    (@List.chain'_iff_pairwise _ annLE _ _).mp (chain_le_of_chain_sep hv hc)
  conv_lhs => rw [normalize_annotations, hfilter, hsorted.insertionSort_eq]
  cases hout : normalize_annotations l with
  | nil => rfl
  | cons a t =>
    rw [hout] at hc
    exact (show mergeSweep (a :: t) = a :: t from sweepMerge_of_sep hc)

/-- Python `int(x * 1000)`: truncation toward zero of the exact rational
`x * 1000`, computed on the numerator/denominator with `Int.tdiv`. -/
def msOfSec (q : ℚ) : ℤ := (q.num * 1000).tdiv q.den

/-- Clamp a Python slice index into `[0, len]` (negative indices count from
the end, as in Python sequence slicing, which pydub millisecond slicing
follows). -/
def pySliceIdx (len : ℕ) (i : ℤ) : ℕ := if i < 0 then ((len : ℤ) + i).toNat else min i.toNat len

/-- Python slice `seg[a:b]` at millisecond granularity. -/
def pySlice (seg : List ℤ) (a b : ℤ) : List ℤ :=
  (seg.drop (pySliceIdx seg.length a)).take (pySliceIdx seg.length b - pySliceIdx seg.length a)

/-- Python slice `seg[a:]`. -/
def pySliceFrom (seg : List ℤ) (a : ℤ) : List ℤ := seg.drop (pySliceIdx seg.length a)

/-- Python `str.lower()` (ASCII-adequate for this catalog). -/
def lowerStr (s : String) : String := String.mk (s.data.map Char.toLower)

/-- Python `str.upper()`. -/
def upperStr (s : String) : String := String.mk (s.data.map Char.toUpper)

/-- ASCII whitespace test backing Python `str.strip()`. -/
def isPySpace (c : Char) : Bool := (c == ' ') || (c == '\t') || (c == '\n') || (c == '\r')

/-- Python `str.strip()`. -/
def stripStr (s : String) : String :=
  String.mk (((s.data.dropWhile isPySpace).reverse.dropWhile isPySpace).reverse)

/-- The extension part of `os.path.splitext`: the suffix from the last dot
that has at least one non-dot character before it (leading dots do not start
an extension). -/
def splitextExt (cs : List Char) : List Char :=
  match ((List.range cs.length).filter
      (fun i => (cs.getD i ' ' == '.') && (cs.take i).any (fun c => c != '.'))).getLast? with
  | none => []
  | some i => cs.drop i

/-- Python `s.strip(".")`. -/
def stripDots (cs : List Char) : List Char :=
  ((cs.dropWhile (· == '.')).reverse.dropWhile (· == '.')).reverse

/-- `os.path.splitext(name)[1].lower().strip(".")` from `_list_audio_files`. -/
def fileExt (name : String) : String :=
  String.mk (stripDots ((splitextExt name.data).map Char.toLower))

/-- The audio extensions accepted by `_list_audio_files`. -/
def audioExts : List String := ["wav", "mp3", "flac", "ogg", "m4a"]

/-- A filesystem path, as its list of segments. -/
abbrev FsPath := List String

/-- The surrogate directory catalog: `dirs` lists the entry names of a
directory (empty for a missing directory, like `os.path.isdir` + `os.listdir`)
and `contents` decodes a file (`none` models a non-existing file, as tested by
`os.path.exists`). -/
structure Catalog where
  dirs : FsPath → List String
  contents : FsPath → Option (List ℤ)

/-- `_list_audio_files`: the files of a folder whose extension is a supported
audio extension, as full paths in listing order. -/
def list_audio_files (cat : Catalog) (folder : FsPath) : List FsPath :=
  ((cat.dirs folder).filter (fun name => decide (fileExt name ∈ audioExts))).map
    (fun name => folder ++ [name])

/-- `gender = (gender or "male").lower()`. -/
def normGender (g : String) : String := lowerStr (pyStrOr g "male")

/-- `label = (label or "").strip().lower() or None`. -/
def normLabelOpt (lab : Option String) : Option String :=
  let s := lowerStr (stripStr (lab.getD ""))
  if s = "" then none else some s

/-- `language = (language or "english").lower()`. -/
def normLanguage (lang : String) : String := lowerStr (pyStrOr lang "english")

/-- The fixed directory search order of `_pick_surrogate_path`
(audio_processing.py lines 55-68). -/
def searchOrder (root : FsPath) (g : String) (lab : Option String) (lang : String) : List FsPath :=
  (match lab with
   | some l => [root ++ [lang, g, l], root ++ [lang, l, g], root ++ [lang, l]]
   | none => [])
  ++ [root ++ [lang, g]]
  ++ (match lab with
      | some l => [root ++ [g, l], root ++ [l, g], root ++ [l]]
      | none => [])
  ++ [root ++ [g]]

/-- `os.path.basename` on a segment path. -/
def basenameOf (p : FsPath) : String := p.getLastD ""

/-- `label_upper in os.path.basename(f).upper()`: case-insensitive substring
test of the label token against a candidate file name. -/
def labelMatches (l : String) (p : FsPath) : Bool :=
  decide ((upperStr l).data <:+: (upperStr (basenameOf p)).data)

/-- The folder loop of `_pick_surrogate_path` (lines 73-94): walk the search
order; with a label, keep only files whose name contains the label token and
skip the folder entirely when none match; stop at the first folder that
contributes at least one candidate. -/
def pickCandidatesGo (cat : Catalog) (lab : Option String) : List FsPath → List FsPath
  | [] => []
  | folder :: rest =>
    let files := list_audio_files cat folder
    match lab with
    | some l =>
      let filtered := files.filter (labelMatches l)
      if filtered.isEmpty then pickCandidatesGo cat (some l) rest else filtered
    | none => if files.isEmpty then pickCandidatesGo cat none rest else files

/-- The candidate set `_pick_surrogate_path` randomizes over (inputs already
normalized). -/
def pickCandidates (cat : Catalog) (root : FsPath) (g : String) (lab : Option String)
    (lang : String) : List FsPath :=
  pickCandidatesGo cat lab (searchOrder root g lab lang)

/-- `_pick_surrogate_path`: normalize the query, compute the candidate set,
and return `random.choice(candidates)` (the random draw is the parameter
`choose`), or `None` when no candidates were found. -/
def pick_surrogate_path (cat : Catalog) (choose : List FsPath → FsPath) (root : FsPath)
    (g : String) (lab : Option String) (lang : String) : Option FsPath :=
  let c := pickCandidates cat root (normGender g) (normLabelOpt lab) (normLanguage lang)
  if c.isEmpty then none else some (choose c)

/-- Errors raised by the splicing engine: the explicit `ValueError` of the
surrogate loaders, and the `AttributeError` of `ann.label.lower()` on a span
whose label is `None` (line 195). -/
inductive SpliceError where
  | noSurrogate (g : String) (lab : Option String) (lang : String)
  | noneLabelAttribute
deriving DecidableEq

/-- `_load_surrogate_direct`: resolve a path and decode it; raise when no
surrogate was found (no fallback asset). -/
def load_surrogate_direct (cat : Catalog) (choose : List FsPath → FsPath) (root : FsPath)
    (g : String) (lab : Option String) (lang : String) : Except SpliceError (List ℤ × FsPath) :=
  match pick_surrogate_path cat choose root g lab lang with
  | some p =>
    match cat.contents p with
    | some seg => .ok (seg, p)
    | none => .error (.noSurrogate g lab lang)
  | none => .error (.noSurrogate g lab lang)

/-- The trim-or-pad step of `_load_and_fit_surrogate` (lines 115-119). -/
def fitSegment (seg : List ℤ) (target : ℤ) : List ℤ :=
  if (seg.length : ℤ) > target then seg.take target.toNat
  else if (seg.length : ℤ) < target then seg ++ List.replicate (target - seg.length).toNat 0
  else seg

/-- `_load_and_fit_surrogate`: resolve, decode, and fit to the target length
before format adaptation. -/
def load_and_fit_surrogate (cat : Catalog) (choose : List FsPath → FsPath) (root : FsPath)
    (g : String) (lab : Option String) (target : ℤ) (lang : String) :
    Except SpliceError (List ℤ × FsPath) :=
  match pick_surrogate_path cat choose root g lab lang with
  | some p =>
    match cat.contents p with
    | some seg => .ok (fitSegment seg target, p)
    | none => .error (.noSurrogate g lab lang)
  | none => .error (.noSurrogate g lab lang)

/-- `filename_without_ext`: the basename with `os.path.splitext`'s extension
removed. -/
def stemOf (name : String) : String :=
  String.mk (name.data.take (name.data.length - (splitextExt name.data).length))

/-- One entry of the `surrogate_usage` list built at lines 197-208. -/
structure UsageRec where
  start_sec : ℚ
  end_sec : ℚ
  duration_sec : ℚ
  gender : String
  label : Option String
  language : String
  surrogate_path : FsPath
  surrogate_name : String
  surrogate_duration_ms : ℕ
  processing_strategy : String
deriving DecidableEq

/-- Build the per-span usage record; `lab` is the span's label, already known
to be non-`None` (otherwise line 195 raises before this record is built). -/
def mkUsageRec (a : Annotation) (lab : String) (p : FsPath) (segLen : ℕ)
    (strategy : String) : UsageRec :=
  { start_sec := a.start_sec
    end_sec := a.end_sec
    duration_sec := a.end_sec - a.start_sec
    gender := a.gender
    label := a.label
    language := a.language
    surrogate_path := p
    surrogate_name :=
      a.language ++ "_" ++ a.gender ++ "_" ++ lowerStr lab ++ "_" ++ stemOf (basenameOf p)
    surrogate_duration_ms := segLen
    processing_strategy := strategy }

/-- Strategy dispatch of lines 182-185: `fit` loads a fitted surrogate, any
other strategy string loads the clip unchanged. -/
def loadForStrategy (cat : Catalog) (choose : List FsPath → FsPath) (root : FsPath)
    (strategy : String) (a : Annotation) (target : ℤ) : Except SpliceError (List ℤ × FsPath) :=
  if strategy = "fit" then
    load_and_fit_surrogate cat choose root a.gender a.label target a.language
  else
    load_surrogate_direct cat choose root a.gender a.label a.language

/-- The per-span loop of `anonymize_with_surrogates` (lines 167-210) plus the
tail append (lines 213-214). `adapt` models
`set_frame_rate(sr).set_channels(ch)` (pure format adaptation). The cursor
advances through the original timeline in milliseconds. -/
def spliceGo (cat : Catalog) (choose : List FsPath → FsPath) (adapt : List ℤ → List ℤ)
    (input : List ℤ) (root : FsPath) (strategy : String) :
    List Annotation → ℤ → List ℤ → List UsageRec → Except SpliceError (List ℤ × List UsageRec)
  | [], cursor, out, recs =>
    .ok (if cursor < (input.length : ℤ) then out ++ pySliceFrom input cursor else out, recs)
  | a :: rest, cursor, out, recs =>
    let start_ms := msOfSec a.start_sec
    let end_ms := msOfSec a.end_sec
    let target_ms := max 0 (end_ms - start_ms)
    let out1 := if start_ms > cursor then out ++ pySlice input cursor start_ms else out
    match loadForStrategy cat choose root strategy a target_ms with
    | .error e => .error e
    | .ok (seg, p) =>
      let seg2 := adapt seg
      let out2 := out1 ++ seg2
      match a.label with
      | none => .error .noneLabelAttribute
      | some lab =>
        spliceGo cat choose adapt input root strategy rest end_ms out2
          (recs ++ [mkUsageRec a lab p seg2.length strategy])

/-- `anonymize_with_surrogates`: normalize the annotations, return the input
unchanged when nothing remains, otherwise splice span by span. -/
def anonymize_with_surrogates (cat : Catalog) (choose : List FsPath → FsPath)
    (adapt : List ℤ → List ℤ) (input : List ℤ) (annots : List Annotation) (root : FsPath)
    (strategy : String) : Except SpliceError (List ℤ × List UsageRec) :=
  let spans := normalize_annotations annots
  if spans.isEmpty then .ok (input, [])
  else spliceGo cat choose adapt input root strategy spans 0 [] []

/-- Spec reading of the search order: language/gender/label,
language/label/gender, language/label, language/gender, the same label probes
without the language segment, then a bare gender pool. -/
def specSearchOrder (root : FsPath) (g : String) (lab : Option String) (lang : String) :
    List FsPath :=
  match lab with
  | some l =>
    [root ++ [lang, g, l], root ++ [lang, l, g], root ++ [lang, l], root ++ [lang, g],
     root ++ [g, l], root ++ [l, g], root ++ [l], root ++ [g]]
  | none => [root ++ [lang, g], root ++ [g]]

/-- Spec reading of per-directory label filtering: with a label requested,
keep only files whose name contains the label token (case-insensitively). -/
def specFilterFiles (lab : Option String) (files : List FsPath) : List FsPath :=
  match lab with
  | some l => files.filter (labelMatches l)
  | none => files

/-- Spec reading of resolution: the candidate set is the filtered file list of
the first directory in the fixed order whose filtered list is non-empty, and
empty when no directory yields a candidate. -/
def specResolveCandidates (cat : Catalog) (root : FsPath) (g : String) (lab : Option String)
    (lang : String) : List FsPath :=
  (((specSearchOrder root g lab lang).map
      (fun d => specFilterFiles lab (list_audio_files cat d))).find?
    (fun files => !files.isEmpty)).getD []

theorem pickCandidatesGo_eq (cat : Catalog) (lab : Option String) :
    ∀ ds : List FsPath,
      pickCandidatesGo cat lab ds =
        ((ds.map (fun d => specFilterFiles lab (list_audio_files cat d))).find?
          (fun files => !files.isEmpty)).getD [] := by
  intro ds
  induction ds with
  | nil => cases lab <;> rfl
  | cons d rest ih =>
    cases lab with
    | none =>
      by_cases h : (list_audio_files cat d).isEmpty
      · simp [pickCandidatesGo, h, specFilterFiles, List.find?, ih]
      · simp [pickCandidatesGo, h, specFilterFiles, List.find?]
    | some l =>
      by_cases h : ((list_audio_files cat d).filter (labelMatches l)).isEmpty
      · simp [pickCandidatesGo, h, specFilterFiles, List.find?, ih]
      · simp [pickCandidatesGo, h, specFilterFiles, List.find?]

theorem searchOrder_eq_spec (root : FsPath) (g : String) (lab : Option String) (lang : String) :
    searchOrder root g lab lang = specSearchOrder root g lab lang := by
  cases lab <;> rfl

/-- C5: surrogate resolution probes the candidate directories in the claimed
fixed order, applies case-insensitive label filtering inside each directory,
skips a directory whose filtered set is empty (never falling back to its
unfiltered files), stops at the first directory yielding at least one file
after filtering, and randomizes only among that directory's files. -/
theorem claim_C5_resolution_order :
    ∀ (cat : Catalog) (root : FsPath) (g : String) (lab : Option String) (lang : String),
      pickCandidates cat root g lab lang = specResolveCandidates cat root g lab lang
      ∧ (∀ (choose : List FsPath → FsPath) (p : FsPath),
          (∀ c : List FsPath, c ≠ [] → choose c ∈ c) →
          pick_surrogate_path cat choose root g lab lang = some p →
          p ∈ pickCandidates cat root (normGender g) (normLabelOpt lab) (normLanguage lang)) := by
  intro cat root g lab lang
  constructor
  · unfold pickCandidates specResolveCandidates
    rw [pickCandidatesGo_eq, searchOrder_eq_spec]
  · intro choose p hchoose hp
    unfold pick_surrogate_path at hp
    by_cases hc : (pickCandidates cat root (normGender g) (normLabelOpt lab)
        (normLanguage lang)).isEmpty
    · rw [if_pos hc] at hp; exact absurd hp (by simp)
    · rw [if_neg hc] at hp
      have := hchoose _ (by simpa [List.isEmpty_iff] using hc)
      simpa [← Option.some_inj.mp hp] using this

/-- Witness catalog: one populated directory plus a decodable file. -/
def catW : Catalog :=
  { dirs := fun d => if d = ["r", "english", "male", "person"] then ["person_1.wav", "b.txt"] else []
    contents := fun p =>
      if p = ["r", "english", "male", "person", "person_1.wav"] then some [1, 2, 3] else none }

/-- Witness random choice: always pick the first candidate. -/
def chooseW : List FsPath → FsPath := fun c => c.headD []

theorem chooseW_mem : ∀ c : List FsPath, c ≠ [] → chooseW c ∈ c := by
  intro c hc
  cases c with
  | nil => exact absurd rfl hc
  | cons a t => simp [chooseW]

/-- Witness for C5: on a concrete catalog the resolver picks the file of the
first matching directory, and the chosen path is among the candidates. -/
theorem claim_C5_resolution_order_witness :
    pick_surrogate_path catW chooseW ["r"] "Male" (some " Person ") "english"
      = some ["r", "english", "male", "person", "person_1.wav"]
    ∧ ["r", "english", "male", "person", "person_1.wav"]
        ∈ pickCandidates catW ["r"] (normGender "Male") (normLabelOpt (some " Person "))
            (normLanguage "english") := by
  refine ⟨by with_unfolding_all decide, ?_⟩
  exact (claim_C5_resolution_order catW ["r"] "Male" (some " Person ") "english").2 chooseW
    ["r", "english", "male", "person", "person_1.wav"] chooseW_mem (by with_unfolding_all decide)

/-- C6: when normalization leaves no spans (for example when every supplied
annotation is degenerate and gets dropped), the splice returns the original
buffer unchanged together with an empty usage list, raising no error. -/
theorem claim_C6_empty_spans_identity (cat : Catalog) (choose : List FsPath → FsPath)
    (adapt : List ℤ → List ℤ) (input : List ℤ) (annots : List Annotation) (root : FsPath)
    (strategy : String) (h : normalize_annotations annots = []) :
    anonymize_with_surrogates cat choose adapt input annots root strategy = .ok (input, []) := by
  unfold anonymize_with_surrogates
  rw [h]
  rfl

/-- Witness for C6: a single degenerate annotation is dropped and the input
buffer comes back unchanged with no usage records. -/
theorem claim_C6_empty_spans_identity_witness :
    normalize_annotations [⟨1/2, 1/2, "male", some "person", "english"⟩] = []
    ∧ anonymize_with_surrogates catW chooseW id [5, 6, 7]
        [⟨1/2, 1/2, "male", some "person", "english"⟩] ["r"] "direct" = .ok ([5, 6, 7], []) :=
  ⟨by with_unfolding_all decide,
   claim_C6_empty_spans_identity catW chooseW id [5, 6, 7] _ ["r"] "direct"
     (by with_unfolding_all decide)⟩

theorem pick_none_of_empty {cat : Catalog} {choose : List FsPath → FsPath} {root : FsPath}
    {g : String} {lab : Option String} {lang : String}
    (h : pickCandidates cat root (normGender g) (normLabelOpt lab) (normLanguage lang) = []) :
    pick_surrogate_path cat choose root g lab lang = none := by
  unfold pick_surrogate_path
  rw [h]
  rfl

theorem loadForStrategy_error_of_empty {cat : Catalog} {choose : List FsPath → FsPath}
    {root : FsPath} {strategy : String} {a : Annotation} {target : ℤ}
    (h : pickCandidates cat root (normGender a.gender) (normLabelOpt a.label)
      (normLanguage a.language) = []) :
    loadForStrategy cat choose root strategy a target
      = .error (.noSurrogate a.gender a.label a.language) := by
  unfold loadForStrategy load_and_fit_surrogate load_surrogate_direct
  rw [pick_none_of_empty h]
  by_cases hs : strategy = "fit" <;> simp [hs]

theorem spliceGo_error_of_unresolved (cat : Catalog) (choose : List FsPath → FsPath)
    (adapt : List ℤ → List ℤ) (input : List ℤ) (root : FsPath) (strategy : String) :
    ∀ (spans : List Annotation) (cursor : ℤ) (out : List ℤ) (recs : List UsageRec),
      (∃ a ∈ spans, pickCandidates cat root (normGender a.gender) (normLabelOpt a.label)
        (normLanguage a.language) = []) →
      ∃ e, spliceGo cat choose adapt input root strategy spans cursor out recs = .error e := by
  intro spans
  induction spans with
  | nil => intro _ _ _ h; simp at h
  | cons a rest ih =>
    intro cursor out recs h
    by_cases ha : pickCandidates cat root (normGender a.gender) (normLabelOpt a.label)
        (normLanguage a.language) = []
    · exact ⟨.noSurrogate a.gender a.label a.language,
        by simp [spliceGo, loadForStrategy_error_of_empty ha]⟩
    · obtain ⟨b, hb, hbe⟩ := h
      have hbrest : b ∈ rest := by
        rcases List.mem_cons.mp hb with rfl | h2
        · exact absurd hbe ha
        · exact h2
      cases hl : loadForStrategy cat choose root strategy a
          (max 0 (msOfSec a.end_sec - msOfSec a.start_sec)) with
      | error e => exact ⟨e, by simp [spliceGo, hl]⟩
      | ok v =>
        obtain ⟨seg, p⟩ := v
        cases hlab : a.label with
        | none => exact ⟨.noneLabelAttribute, by simp [spliceGo, hl, hlab]⟩
        | some lab =>
          obtain ⟨e, he⟩ := ih (msOfSec a.end_sec)
            ((if msOfSec a.start_sec > cursor then
                out ++ pySlice input cursor (msOfSec a.start_sec) else out) ++ adapt seg)
            (recs ++ [mkUsageRec a lab p (adapt seg).length strategy]) ⟨b, hbrest, hbe⟩
          exact ⟨e, by simp only [spliceGo, hl, hlab]; exact he⟩

/-- C4: if surrogate resolution fails for any normalized span (no directory in
the search order yields a candidate file), the whole splice call fails with an
explicit error — no default asset is substituted and no partial output buffer
is returned. -/
theorem claim_C4_resolution_failure_aborts (cat : Catalog) (choose : List FsPath → FsPath)
    (adapt : List ℤ → List ℤ) (input : List ℤ) (annots : List Annotation) (root : FsPath)
    (strategy : String)
    (h : ∃ a ∈ normalize_annotations annots,
      pickCandidates cat root (normGender a.gender) (normLabelOpt a.label)
        (normLanguage a.language) = []) :
    ∃ e, anonymize_with_surrogates cat choose adapt input annots root strategy = .error e := by
  unfold anonymize_with_surrogates
  obtain ⟨a, ha, hae⟩ := h
  have hne : ¬ ((normalize_annotations annots).isEmpty = true) := by
    cases hnn : normalize_annotations annots with
    | nil => rw [hnn] at ha; simp at ha
    | cons x t => simp [hnn]
  rw [if_neg hne]
  exact spliceGo_error_of_unresolved cat choose adapt input root strategy _ 0 [] [] ⟨a, ha, hae⟩

/-- An empty catalog: every resolution fails. -/
def catEmpty : Catalog := ⟨fun _ => [], fun _ => none⟩

/-- Witness for C4: with an empty catalog, a single valid annotation makes the
whole splice call return an error. -/
theorem claim_C4_resolution_failure_aborts_witness :
    (∃ a ∈ normalize_annotations [⟨0, 1, "male", some "person", "english"⟩],
      pickCandidates catEmpty ["r"] (normGender a.gender) (normLabelOpt a.label)
        (normLanguage a.language) = [])
    ∧ ∃ e, anonymize_with_surrogates catEmpty chooseW id [1, 2, 3]
        [⟨0, 1, "male", some "person", "english"⟩] ["r"] "direct" = .error e :=
  ⟨by with_unfolding_all decide,
   claim_C4_resolution_failure_aborts catEmpty chooseW id [1, 2, 3] _ ["r"] "direct"
     (by with_unfolding_all decide)⟩

/-- A span's surrogate resolves: `_pick_surrogate_path` yields a path and the
file exists (`os.path.exists`). -/
def resolvesB (cat : Catalog) (choose : List FsPath → FsPath) (root : FsPath)
    (b : Annotation) : Bool :=
  match pick_surrogate_path cat choose root b.gender b.label b.language with
  | some p => (cat.contents p).isSome
  | none => false

theorem loadForStrategy_ok_of_resolves {cat : Catalog} {choose : List FsPath → FsPath}
    {root : FsPath} {b : Annotation} (strategy : String) (target : ℤ)
    (hb : resolvesB cat choose root b = true) :
    ∃ seg p, loadForStrategy cat choose root strategy b target = .ok (seg, p) := by
  unfold resolvesB at hb
  cases hp : pick_surrogate_path cat choose root b.gender b.label b.language with
  | none => rw [hp] at hb; simp at hb
  | some p =>
    rw [hp] at hb
    dsimp only at hb
    cases hc : cat.contents p with
    | none => rw [hc] at hb; simp at hb
    | some seg =>
      by_cases hs : strategy = "fit"
      · refine ⟨fitSegment seg target, p, ?_⟩
        unfold loadForStrategy load_and_fit_surrogate
        rw [if_pos hs, hp]
        simp [hc]
      · refine ⟨seg, p, ?_⟩
        unfold loadForStrategy load_surrogate_direct
        rw [if_neg hs, hp]
        simp [hc]

theorem spliceGo_noneLabel (cat : Catalog) (choose : List FsPath → FsPath)
    (adapt : List ℤ → List ℤ) (input : List ℤ) (root : FsPath) (strategy : String) :
    ∀ (spans : List Annotation) (cursor : ℤ) (out : List ℤ) (recs : List UsageRec),
      (∀ b ∈ spans, resolvesB cat choose root b = true) →
      (∃ a ∈ spans, a.label = none) →
      spliceGo cat choose adapt input root strategy spans cursor out recs
        = .error .noneLabelAttribute := by
  intro spans
  induction spans with
  | nil => intro _ _ _ _ h2; simp at h2
  | cons a rest ih =>
    intro cursor out recs h1 h2
    obtain ⟨seg, p, hl⟩ := loadForStrategy_ok_of_resolves strategy
      (max 0 (msOfSec a.end_sec - msOfSec a.start_sec)) (h1 a (List.mem_cons_self _ _))
    cases hlab : a.label with
    | none => simp [spliceGo, hl, hlab]
    | some lab =>
      have h2rest : ∃ b ∈ rest, b.label = none := by
        obtain ⟨b, hb, hbn⟩ := h2
        rcases List.mem_cons.mp hb with rfl | hbr
        · rw [hlab] at hbn; exact absurd hbn (by simp)
        · exact ⟨b, hbr, hbn⟩
      simp only [spliceGo, hl, hlab]
      exact ih _ _ _ (fun b hb => h1 b (List.mem_cons_of_mem _ hb)) h2rest

theorem spliceGo_not_ok_of_noneLabel (cat : Catalog) (choose : List FsPath → FsPath)
    (adapt : List ℤ → List ℤ) (input : List ℤ) (root : FsPath) (strategy : String) :
    ∀ (spans : List Annotation) (cursor : ℤ) (out : List ℤ) (recs : List UsageRec),
      (∃ a ∈ spans, a.label = none) →
      ∀ (o : List ℤ) (r : List UsageRec),
        spliceGo cat choose adapt input root strategy spans cursor out recs ≠ .ok (o, r) := by
  intro spans
  induction spans with
  | nil => intro _ _ _ h2; simp at h2
  | cons a rest ih =>
    intro cursor out recs h2 o r
    cases hl : loadForStrategy cat choose root strategy a
        (max 0 (msOfSec a.end_sec - msOfSec a.start_sec)) with
    | error e => simp [spliceGo, hl]
    | ok v =>
      obtain ⟨seg, p⟩ := v
      cases hlab : a.label with
      | none => simp [spliceGo, hl, hlab]
      | some lab =>
        have h2rest : ∃ b ∈ rest, b.label = none := by
          obtain ⟨b, hb, hbn⟩ := h2
          rcases List.mem_cons.mp hb with rfl | hbr
          · rw [hlab] at hbn; exact absurd hbn (by simp)
          · exact ⟨b, hbr, hbn⟩
        simp only [spliceGo, hl, hlab]
        exact ih _ _ _ h2rest o r

/-- C9 (implicit): a normalized span whose label is `None` can never complete
splicing: the call never returns a buffer, and whenever every span's
surrogate resolves (so the surrogate of the label-less span is successfully
resolved and appended), the failure is precisely the `ann.label.lower()`
attribute access on `None` in the usage-record construction at line 195 —
although `label` is declared optional in the annotation model. -/
theorem claim_C9_none_label_raises (cat : Catalog) (choose : List FsPath → FsPath)
    (adapt : List ℤ → List ℤ) (input : List ℤ) (annots : List Annotation) (root : FsPath)
    (strategy : String)
    (h2 : ∃ a ∈ normalize_annotations annots, a.label = none) :
    (∀ (o : List ℤ) (r : List UsageRec),
      anonymize_with_surrogates cat choose adapt input annots root strategy ≠ .ok (o, r))
    ∧ ((∀ b ∈ normalize_annotations annots, resolvesB cat choose root b = true) →
      anonymize_with_surrogates cat choose adapt input annots root strategy
        = .error .noneLabelAttribute) := by
  have hne : ¬ ((normalize_annotations annots).isEmpty = true) := by
    obtain ⟨a, ha, _⟩ := h2
    cases hnn : normalize_annotations annots with
    | nil => rw [hnn] at ha; simp at ha
    | cons x t => simp [hnn]
  constructor
  · intro o r
    unfold anonymize_with_surrogates
    rw [if_neg hne]
    exact spliceGo_not_ok_of_noneLabel cat choose adapt input root strategy _ 0 [] [] h2 o r
  · intro h1
    unfold anonymize_with_surrogates
    rw [if_neg hne]
    exact spliceGo_noneLabel cat choose adapt input root strategy _ 0 [] [] h1 h2

/-- Witness catalog for C9: a gender-pool directory with one decodable clip,
so a label-less query resolves. -/
def catG : Catalog :=
  { dirs := fun d => if d = ["r", "english", "male"] then ["x.wav"] else []
    contents := fun p => if p = ["r", "english", "male", "x.wav"] then some [7, 8] else none }

/-- Witness for C9: a single label-less span resolves its surrogate yet the
splice call still fails, specifically with the attribute error. -/
theorem claim_C9_none_label_raises_witness :
    (∃ a ∈ normalize_annotations [⟨0, 1, "male", none, "english"⟩], a.label = none)
    ∧ (∀ b ∈ normalize_annotations [⟨0, 1, "male", none, "english"⟩],
        resolvesB catG chooseW ["r"] b = true)
    ∧ anonymize_with_surrogates catG chooseW id [1, 2, 3]
        [⟨0, 1, "male", none, "english"⟩] ["r"] "direct" = .error .noneLabelAttribute :=
  ⟨by with_unfolding_all decide, by with_unfolding_all decide,
   (claim_C9_none_label_raises catG chooseW id [1, 2, 3] _ ["r"] "direct"
     (by with_unfolding_all decide)).2 (by with_unfolding_all decide)⟩

theorem msOfSec_nonneg_eq (q : ℚ) (h : 0 ≤ q) : msOfSec q = ⌊(q * 1000 : ℚ)⌋ := by
  have hnum : 0 ≤ q.num := Rat.num_nonneg.mpr h
  unfold msOfSec
  rw [Int.tdiv_eq_ediv (by positivity) (Int.ofNat_nonneg _)]
  rw [← Rat.floor_intCast_div_natCast (q.num * 1000) q.den]
  congr 1
  have hden : ((q.den : ℚ)) ≠ 0 := Nat.cast_ne_zero.mpr (Rat.den_ne_zero q)
  have hq : (q.num : ℚ) = q * q.den := (div_eq_iff hden).mp (Rat.num_div_den q)
  rw [div_eq_iff hden]
  push_cast
  rw [hq]
  ring

theorem msOfSec_neg (q : ℚ) : msOfSec (-q) = -msOfSec q := by
  unfold msOfSec
  rw [Rat.neg_num, Rat.neg_den, neg_mul, Int.neg_tdiv]

theorem msOfSec_nonpos_eq (q : ℚ) (h : q ≤ 0) : msOfSec q = ⌈(q * 1000 : ℚ)⌉ := by
  have h1 := msOfSec_nonneg_eq (-q) (neg_nonneg.mpr h)
  rw [msOfSec_neg] at h1
  have h2 : msOfSec q = -⌊(-q * 1000 : ℚ)⌋ := by omega
  rw [h2]
  rw [show ((-q) * 1000 : ℚ) = -(q * 1000) by ring, Int.floor_neg, neg_neg]

theorem msOfSec_mono {q r : ℚ} (h : q ≤ r) : msOfSec q ≤ msOfSec r := by
  rcases le_or_lt 0 q with hq | hq
  · rw [msOfSec_nonneg_eq q hq, msOfSec_nonneg_eq r (le_trans hq h)]
    exact Int.floor_le_floor (by nlinarith)
  · rcases le_or_lt 0 r with hr | hr
    · rw [msOfSec_nonpos_eq q hq.le, msOfSec_nonneg_eq r hr]
      have h1 : ⌈(q * 1000 : ℚ)⌉ ≤ (0 : ℤ) := Int.ceil_le.mpr (by push_cast; nlinarith)
      have h2 : (0 : ℤ) ≤ ⌊(r * 1000 : ℚ)⌋ := Int.floor_nonneg.mpr (by nlinarith)
      omega
    · rw [msOfSec_nonpos_eq q hq.le, msOfSec_nonpos_eq r hr.le]
      exact Int.ceil_le_ceil (by nlinarith)

theorem msOfSec_nonneg {q : ℚ} (h : 0 ≤ q) : 0 ≤ msOfSec q :=
  Int.tdiv_nonneg (mul_nonneg (Rat.num_nonneg.mpr h) (by norm_num)) (Int.ofNat_nonneg _)

theorem pySliceIdx_of_bounds {len : ℕ} {i : ℤ} (h0 : 0 ≤ i) (hl : i ≤ (len : ℤ)) :
    ((pySliceIdx len i : ℕ) : ℤ) = i := by
  unfold pySliceIdx
  rw [if_neg (not_lt.mpr h0)]
  omega

theorem length_pySlice {input : List ℤ} {a b : ℤ} (h0 : 0 ≤ a) (hab : a ≤ b)
    (hb : b ≤ (input.length : ℤ)) : ((pySlice input a b).length : ℤ) = b - a := by
  unfold pySlice
  rw [List.length_take, List.length_drop]
  have ha := pySliceIdx_of_bounds h0 (le_trans hab hb)
  have hbb := pySliceIdx_of_bounds (le_trans h0 hab) hb
  omega

theorem length_pySliceFrom {input : List ℤ} {a : ℤ} (h0 : 0 ≤ a)
    (ha : a ≤ (input.length : ℤ)) :
    ((pySliceFrom input a).length : ℤ) = (input.length : ℤ) - a := by
  unfold pySliceFrom
  rw [List.length_drop]
  have := pySliceIdx_of_bounds h0 ha
  omega

theorem length_fitSegment {seg : List ℤ} {target : ℤ} (h : 0 ≤ target) :
    ((fitSegment seg target).length : ℤ) = target := by
  unfold fitSegment
  split_ifs with h1 h2
  · rw [List.length_take]; omega
  · rw [List.length_append, List.length_replicate]; omega
  · omega

theorem load_and_fit_ok_length {cat : Catalog} {choose : List FsPath → FsPath} {root : FsPath}
    {g : String} {lab : Option String} {lang : String} {target : ℤ} {seg : List ℤ} {p : FsPath}
    (h : load_and_fit_surrogate cat choose root g lab target lang = .ok (seg, p))
    (ht : 0 ≤ target) : ((seg.length : ℕ) : ℤ) = target := by
  unfold load_and_fit_surrogate at h
  cases hp : pick_surrogate_path cat choose root g lab lang with
  | none => rw [hp] at h; exact absurd h (by simp)
  | some pp =>
    rw [hp] at h
    dsimp only at h
    cases hc : cat.contents pp with
    | none => rw [hc] at h; exact absurd h (by simp)
    | some raw =>
      rw [hc] at h
      dsimp only at h
      have h2 : fitSegment raw target = seg := by
        have := congrArg (fun e => match e with | Except.ok (s, _) => s | Except.error _ => ([] : List ℤ)) h
        simpa using this
      rw [← h2]
      exact length_fitSegment ht

/-- The claimed gap sum: leading gap, inter-span gaps, and trailing gap of the
original timeline, in milliseconds. -/
def gapsSum (len : ℤ) : ℤ → List Annotation → ℤ
  | cursor, [] => len - cursor
  | cursor, a :: rest => (msOfSec a.start_sec - cursor) + gapsSum len (msOfSec a.end_sec) rest

/-- Total surrogate milliseconds actually spliced in, read off the usage
records. -/
def sumDurMs (recs : List UsageRec) : ℤ :=
  (recs.map (fun rec => ((rec.surrogate_duration_ms : ℕ) : ℤ))).sum

theorem sumDurMs_append (r1 r2 : List UsageRec) :
    sumDurMs (r1 ++ r2) = sumDurMs r1 + sumDurMs r2 := by
  simp [sumDurMs]

theorem spliceGo_fit_length (cat : Catalog) (choose : List FsPath → FsPath)
    (adapt : List ℤ → List ℤ) (input : List ℤ) (root : FsPath)
    (hadapt : ∀ s, (adapt s).length = s.length) :
    ∀ spans : List Annotation, (∀ a ∈ spans, 0 ≤ a.start_sec) →
      (∀ a ∈ spans, msOfSec a.end_sec ≤ (input.length : ℤ)) →
      (∀ a ∈ spans, ValidAnn a) → List.Chain' annSepRel spans →
      ∀ (cursor : ℤ) (out : List ℤ) (recs : List UsageRec) (o : List ℤ) (r : List UsageRec),
        0 ≤ cursor → cursor ≤ (input.length : ℤ) →
        (∀ a ∈ spans.head?, cursor ≤ msOfSec a.start_sec) →
        spliceGo cat choose adapt input root "fit" spans cursor out recs = .ok (o, r) →
        (o.length : ℤ) = (out.length : ℤ) + ((input.length : ℤ) - cursor) := by
  intro spans
  induction spans with
  | nil =>
    intro _ _ _ _ cursor out recs o r hc0 hclen _ hOk
    simp only [spliceGo] at hOk
    have ho : (if cursor < (input.length : ℤ) then out ++ pySliceFrom input cursor else out)
        = o := by
      have := congrArg (fun e => match e with | Except.ok (s, _) => s | Except.error _ => out) hOk
      simpa using this
    by_cases hcl : cursor < (input.length : ℤ)
    · rw [if_pos hcl] at ho
      rw [← ho, List.length_append]
      have := length_pySliceFrom hc0 hclen
      push_cast
      omega
    · rw [if_neg hcl] at ho
      rw [← ho]
      omega
  | cons a rest ih =>
    intro h0 hlen hval hchain cursor out recs o r hc0 hclen hhead hOk
    have hmem : a ∈ a :: rest := List.mem_cons_self _ _
    have hstart0 : 0 ≤ msOfSec a.start_sec := msOfSec_nonneg (h0 a hmem)
    have hse : msOfSec a.start_sec ≤ msOfSec a.end_sec := msOfSec_mono (le_of_lt (hval a hmem))
    have hstartlen : msOfSec a.start_sec ≤ (input.length : ℤ) := le_trans hse (hlen a hmem)
    have hcs : cursor ≤ msOfSec a.start_sec := hhead a (by simp)
    simp only [spliceGo] at hOk
    cases hl : loadForStrategy cat choose root "fit" a
        (max 0 (msOfSec a.end_sec - msOfSec a.start_sec)) with
    | error e => rw [hl] at hOk; simp at hOk
    | ok v =>
      obtain ⟨seg, p⟩ := v
      rw [hl] at hOk
      dsimp only at hOk
      cases hlab : a.label with
      | none => rw [hlab] at hOk; simp at hOk
      | some lab =>
        rw [hlab] at hOk
        dsimp only at hOk
        have hl' : load_and_fit_surrogate cat choose root a.gender a.label
            (max 0 (msOfSec a.end_sec - msOfSec a.start_sec)) a.language = .ok (seg, p) := by
          simpa [loadForStrategy] using hl
        have hseg : ((seg.length : ℕ) : ℤ) = max 0 (msOfSec a.end_sec - msOfSec a.start_sec) :=
          load_and_fit_ok_length hl' (le_max_left _ _)
        have hmax : max 0 (msOfSec a.end_sec - msOfSec a.start_sec)
            = msOfSec a.end_sec - msOfSec a.start_sec := max_eq_right (by omega)
        have hheadr : ∀ b ∈ rest.head?, msOfSec a.end_sec ≤ msOfSec b.start_sec := by
          cases rest with
          | nil => simp
          | cons b t =>
            intro x hx
            simp only [List.head?_cons, Option.mem_def, Option.some_inj] at hx
            subst hx
            exact msOfSec_mono (le_of_lt (List.chain'_cons.mp hchain).1)
        have hrec := ih (fun b hb => h0 b (List.mem_cons_of_mem _ hb))
          (fun b hb => hlen b (List.mem_cons_of_mem _ hb))
          (fun b hb => hval b (List.mem_cons_of_mem _ hb)) hchain.tail
          (msOfSec a.end_sec)
          ((if msOfSec a.start_sec > cursor then
              out ++ pySlice input cursor (msOfSec a.start_sec) else out) ++ adapt seg)
          (recs ++ [mkUsageRec a lab p (adapt seg).length "fit"]) o r
          (le_trans hstart0 hse) (hlen a hmem) hheadr hOk
        have hadapt1 : ((adapt seg).length : ℤ) = ((seg.length : ℕ) : ℤ) := by
          rw [hadapt seg]
        by_cases hgt : msOfSec a.start_sec > cursor
        · rw [if_pos hgt] at hrec
          rw [List.length_append, List.length_append] at hrec
          have hslice := length_pySlice hc0 hcs hstartlen
          push_cast at hrec
          omega
        · rw [if_neg hgt] at hrec
          rw [List.length_append] at hrec
          have : cursor = msOfSec a.start_sec := by omega
          push_cast at hrec
          omega

theorem spliceGo_direct_length (cat : Catalog) (choose : List FsPath → FsPath)
    (adapt : List ℤ → List ℤ) (input : List ℤ) (root : FsPath) :
    ∀ spans : List Annotation, (∀ a ∈ spans, 0 ≤ a.start_sec) →
      (∀ a ∈ spans, msOfSec a.end_sec ≤ (input.length : ℤ)) →
      (∀ a ∈ spans, ValidAnn a) → List.Chain' annSepRel spans →
      ∀ (cursor : ℤ) (out : List ℤ) (recs : List UsageRec) (o : List ℤ) (r : List UsageRec),
        0 ≤ cursor → cursor ≤ (input.length : ℤ) →
        (∀ a ∈ spans.head?, cursor ≤ msOfSec a.start_sec) →
        spliceGo cat choose adapt input root "direct" spans cursor out recs = .ok (o, r) →
        (o.length : ℤ) + sumDurMs recs
          = (out.length : ℤ) + gapsSum (input.length) cursor spans + sumDurMs r := by
  intro spans
  induction spans with
  | nil =>
    intro _ _ _ _ cursor out recs o r hc0 hclen _ hOk
    simp only [spliceGo] at hOk
    have ho : (if cursor < (input.length : ℤ) then out ++ pySliceFrom input cursor else out)
        = o := by
      have := congrArg (fun e => match e with | Except.ok (s, _) => s | Except.error _ => out) hOk
      simpa using this
    have hr : recs = r := by
      have := congrArg (fun e => match e with | Except.ok (_, rr) => rr | Except.error _ => recs)
        hOk
      simpa using this
    subst hr
    unfold gapsSum
    by_cases hcl : cursor < (input.length : ℤ)
    · rw [if_pos hcl] at ho
      rw [← ho, List.length_append]
      have := length_pySliceFrom hc0 hclen
      push_cast
      omega
    · rw [if_neg hcl] at ho
      rw [← ho]
      omega
  | cons a rest ih =>
    intro h0 hlen hval hchain cursor out recs o r hc0 hclen hhead hOk
    have hmem : a ∈ a :: rest := List.mem_cons_self _ _
    have hstart0 : 0 ≤ msOfSec a.start_sec := msOfSec_nonneg (h0 a hmem)
    have hse : msOfSec a.start_sec ≤ msOfSec a.end_sec := msOfSec_mono (le_of_lt (hval a hmem))
    have hstartlen : msOfSec a.start_sec ≤ (input.length : ℤ) := le_trans hse (hlen a hmem)
    have hcs : cursor ≤ msOfSec a.start_sec := hhead a (by simp)
    simp only [spliceGo] at hOk
    cases hl : loadForStrategy cat choose root "direct" a
        (max 0 (msOfSec a.end_sec - msOfSec a.start_sec)) with
    | error e => rw [hl] at hOk; simp at hOk
    | ok v =>
      obtain ⟨seg, p⟩ := v
      rw [hl] at hOk
      dsimp only at hOk
      cases hlab : a.label with
      | none => rw [hlab] at hOk; simp at hOk
      | some lab =>
        rw [hlab] at hOk
        dsimp only at hOk
        have hheadr : ∀ b ∈ rest.head?, msOfSec a.end_sec ≤ msOfSec b.start_sec := by
          cases rest with
          | nil => simp
          | cons b t =>
            intro x hx
            simp only [List.head?_cons, Option.mem_def, Option.some_inj] at hx
            subst hx
            exact msOfSec_mono (le_of_lt (List.chain'_cons.mp hchain).1)
        have hrec := ih (fun b hb => h0 b (List.mem_cons_of_mem _ hb))
          (fun b hb => hlen b (List.mem_cons_of_mem _ hb))
          (fun b hb => hval b (List.mem_cons_of_mem _ hb)) hchain.tail
          (msOfSec a.end_sec)
          ((if msOfSec a.start_sec > cursor then
              out ++ pySlice input cursor (msOfSec a.start_sec) else out) ++ adapt seg)
          (recs ++ [mkUsageRec a lab p (adapt seg).length "direct"]) o r
          (le_trans hstart0 hse) (hlen a hmem) hheadr hOk
        rw [sumDurMs_append] at hrec
        have hone : sumDurMs [mkUsageRec a lab p (adapt seg).length "direct"]
            = ((adapt seg).length : ℤ) := by
          simp [sumDurMs, mkUsageRec]
        rw [hone] at hrec
        unfold gapsSum
        by_cases hgt : msOfSec a.start_sec > cursor
        · rw [if_pos hgt] at hrec
          rw [List.length_append, List.length_append] at hrec
          have hslice := length_pySlice hc0 hcs hstartlen
          push_cast at hrec
          omega
        · rw [if_neg hgt] at hrec
          rw [List.length_append] at hrec
          have : cursor = msOfSec a.start_sec := by omega
          push_cast at hrec
          omega

/-- C3 (amended): provided every normalized span lies inside the input buffer
(non-negative start, end at most the buffer length) and format adaptation
preserves millisecond duration, a successful splice under strategy `fit`
returns a buffer of exactly the original duration, and under strategy
`direct` a buffer whose duration is the sum of the gaps between/around the
spans in the original plus the durations of the surrogate clips actually
used. Without the in-range assumption the `fit` equality fails (see the
counterexample). -/
theorem claim_C3_splice_duration (cat : Catalog) (choose : List FsPath → FsPath)
    (adapt : List ℤ → List ℤ) (input : List ℤ) (annots : List Annotation) (root : FsPath)
    (hadapt : ∀ s, (adapt s).length = s.length)
    (hstart : ∀ a ∈ normalize_annotations annots, 0 ≤ a.start_sec)
    (hend : ∀ a ∈ normalize_annotations annots,
      msOfSec a.end_sec ≤ (input.length : ℤ)) :
    (∀ o r, anonymize_with_surrogates cat choose adapt input annots root "fit" = .ok (o, r) →
      o.length = input.length)
    ∧ (∀ o r, anonymize_with_surrogates cat choose adapt input annots root "direct"
        = .ok (o, r) →
      (o.length : ℤ) = gapsSum (input.length) 0 (normalize_annotations annots) + sumDurMs r) := by
  have hval := normalize_valid annots
  have hchain := normalize_chain annots
  constructor
  · intro o r hOk
    unfold anonymize_with_surrogates at hOk
    by_cases hne : ((normalize_annotations annots).isEmpty = true)
    · rw [if_pos hne] at hOk
      have : input = o := by
        have := congrArg (fun e => match e with
          | Except.ok (s, _) => s | Except.error _ => input) hOk
        simpa using this
      rw [← this]
    · rw [if_neg hne] at hOk
      have hhead : ∀ a ∈ (normalize_annotations annots).head?, (0:ℤ) ≤ msOfSec a.start_sec :=
        fun a ha => msOfSec_nonneg (hstart a (List.mem_of_mem_head? ha))
      have := spliceGo_fit_length cat choose adapt input root hadapt
        (normalize_annotations annots) hstart hend hval hchain 0 [] [] o r le_rfl
        (Int.ofNat_nonneg _) hhead hOk
      simp only [List.length_nil] at this
      omega
  · intro o r hOk
    unfold anonymize_with_surrogates at hOk
    by_cases hne : ((normalize_annotations annots).isEmpty = true)
    · rw [if_pos hne] at hOk
      have hnil : normalize_annotations annots = [] := List.isEmpty_iff.mp hne
      have ho : input = o := by
        have := congrArg (fun e => match e with
          | Except.ok (s, _) => s | Except.error _ => input) hOk
        simpa using this
      have hr : ([] : List UsageRec) = r := by
        have := congrArg (fun e => match e with
          | Except.ok (_, rr) => rr | Except.error _ => ([] : List UsageRec)) hOk
        simpa using this
      rw [← ho, ← hr, hnil]
      unfold gapsSum sumDurMs
      simp
    · rw [if_neg hne] at hOk
      have hhead : ∀ a ∈ (normalize_annotations annots).head?, (0:ℤ) ≤ msOfSec a.start_sec :=
        fun a ha => msOfSec_nonneg (hstart a (List.mem_of_mem_head? ha))
      have := spliceGo_direct_length cat choose adapt input root
        (normalize_annotations annots) hstart hend hval hchain 0 [] [] o r le_rfl
        (Int.ofNat_nonneg _) hhead hOk
      simp only [List.length_nil] at this
      rw [show sumDurMs [] = 0 from rfl] at this
      omega

/-- Counterexample to C3 as stated: a span reaching past the end of a 2 ms
buffer, spliced under strategy `fit`, yields a 1000 ms output — not the
original duration — because the surrogate is fitted to the span's nominal
length and the cursor skips the whole tail. -/
theorem claim_C3_counterexample :
    Except.map (fun x => x.1.length)
      (anonymize_with_surrogates catW chooseW id [0, 0]
        [⟨0, 1, "male", some "person", "english"⟩] ["r"] "fit") = .ok 1000
    ∧ ([0, 0] : List ℤ).length = 2 := by
  constructor
  · with_unfolding_all rfl
  · rfl

/-- Witness annotations for C3: one in-range span from 1 ms to 3 ms. -/
def annW : List Annotation := [⟨1/1000, 3/1000, "male", some "person", "english"⟩]

/-- Witness for C3 (amended): on a 4 ms buffer with an in-range span, `fit`
splicing returns 4 ms and `direct` splicing returns gaps plus the native
3 ms clip, i.e. 5 ms. -/
theorem claim_C3_splice_duration_witness :
    (∀ a ∈ normalize_annotations annW, 0 ≤ a.start_sec)
    ∧ (∀ a ∈ normalize_annotations annW,
        msOfSec a.end_sec ≤ (([9, 9, 9, 9] : List ℤ).length : ℤ))
    ∧ ((∀ o r, anonymize_with_surrogates catW chooseW id [9, 9, 9, 9] annW ["r"] "fit"
          = .ok (o, r) → o.length = ([9, 9, 9, 9] : List ℤ).length)
        ∧ (∀ o r, anonymize_with_surrogates catW chooseW id [9, 9, 9, 9] annW ["r"] "direct"
            = .ok (o, r) →
          (o.length : ℤ) = gapsSum (([9, 9, 9, 9] : List ℤ).length) 0
            (normalize_annotations annW) + sumDurMs r))
    ∧ Except.map (fun x => x.1.length)
        (anonymize_with_surrogates catW chooseW id [9, 9, 9, 9] annW ["r"] "fit") = .ok 4
    ∧ Except.map (fun x => x.1.length)
        (anonymize_with_surrogates catW chooseW id [9, 9, 9, 9] annW ["r"] "direct")
        = .ok 5 :=
  ⟨by with_unfolding_all decide, by with_unfolding_all decide,
   claim_C3_splice_duration catW chooseW id [9, 9, 9, 9] annW ["r"] (fun s => rfl)
     (by with_unfolding_all decide) (by with_unfolding_all decide),
   by with_unfolding_all rfl, by with_unfolding_all rfl⟩

/-- `n_frame = 1 + np.floor((length_x - winlen)/shift)` from `vp_baseline2`
(floor division on possibly negative numerators, hence `Int.fdiv`). -/
def nFrameZ (L winlen shift : ℕ) : ℤ := 1 + Int.fdiv ((L : ℤ) - (winlen : ℤ)) (shift : ℤ)

/-- `np.arange(1, n_frame)`: the frame indices the overlap-add loop visits —
it starts at 1, never at 0. -/
def mRange (L winlen shift : ℕ) : List ℕ := List.range' 1 (nFrameZ L winlen shift - 1).toNat

/-- One overlap-add write: `y[outindex] = y[outindex] + frame_rec` where
`outindex = np.arange(m*shift, m*shift + len(frame_rec))`. The output buffer
is modelled as a function from sample index to value; `frameRec m` is the
resynthesized windowed frame of iteration `m` (the LPC analysis/synthesis
chain — `librosa.lpc`, `scipy.signal.tf2zpk`, `lfilter` — is third-party
library code and enters the model as this opaque per-frame parameter, which
the claimed property does not depend on). -/
def overlapAddStep (frameRec : ℕ → List ℚ) (shift : ℕ) (y : ℕ → ℚ) (m : ℕ) : ℕ → ℚ :=
  fun i =>
    y i + (if m * shift ≤ i ∧ i < m * shift + (frameRec m).length
           then (frameRec m).getD (i - m * shift) 0 else 0)

/-- The output buffer of `vp_baseline2` just before the final
`y = y/np.max(np.abs(y))` peak normalization: `y = np.zeros([length_x])`
followed by the overlap-add loop over `np.arange(1, n_frame)`. -/
def vpPreNorm (frameRec : ℕ → List ℚ) (L winlen shift : ℕ) : ℕ → ℚ :=
  (mRange L winlen shift).foldl (overlapAddStep frameRec shift) (fun _ => 0)

/-- The default `shift = int(10 * 0.001 * 16000)` of `vp_baseline2`. -/
def vpShiftDefault : ℤ := Rat.floor ((10 : ℚ) * (1 / 1000) * 16000)

/-- The default `winlen = int(20 * 0.001 * 16000)` of `vp_baseline2`. -/
def vpWinlenDefault : ℤ := Rat.floor ((20 : ℚ) * (1 / 1000) * 16000)

theorem foldl_overlapAdd_zero (frameRec : ℕ → List ℚ) (shift : ℕ) (i : ℕ) :
    ∀ (ms : List ℕ) (y : ℕ → ℚ), y i = 0 → (∀ m ∈ ms, i < m * shift) →
      (ms.foldl (overlapAddStep frameRec shift) y) i = 0 := by
  intro ms
  induction ms with
  | nil => intro y hy _; exact hy
  | cons m t ih =>
    intro y hy hlt
    refine ih _ ?_ (fun m' hm' => hlt m' (List.mem_cons_of_mem _ hm'))
    unfold overlapAddStep
    rw [hy]
    have := hlt m (List.mem_cons_self _ _)
    rw [if_neg (by omega)]
    ring

/-- C10 (implicit): whenever the input is long enough for at least two
analysis frames, the overlap-add loop of `vp_baseline2` runs over frame
indices starting at 1 — the frame at offset 0 is never visited — and every
output sample with index below `shift` (160 samples at the default
parameters, window 320) is identically zero before the final peak
normalization, whatever the analyzed signal contributes. -/
theorem claim_C10_first_hop_zero (frameRec : ℕ → List ℚ) (L winlen shift : ℕ)
    (h : 2 ≤ nFrameZ L winlen shift) :
    (∀ i < shift, vpPreNorm frameRec L winlen shift i = 0)
    ∧ 0 ∉ mRange L winlen shift
    ∧ mRange L winlen shift ≠ []
    ∧ vpShiftDefault = 160 ∧ vpWinlenDefault = 320 := by
  refine ⟨?_, ?_, ?_, by with_unfolding_all decide, by with_unfolding_all decide⟩
  · intro i hi
    unfold vpPreNorm
    refine foldl_overlapAdd_zero frameRec shift i _ _ rfl ?_
    intro m hm
    have h1 : 1 ≤ m := ((List.mem_range'_1).mp hm).1
    calc i < shift := hi
      _ = 1 * shift := (one_mul shift).symm
      _ ≤ m * shift := Nat.mul_le_mul_right shift h1
  · intro hmem
    exact absurd ((List.mem_range'_1).mp hmem).1 (by omega)
  · unfold mRange
    rw [ne_eq, List.range'_eq_nil]
    omega

/-- Witness for C10: with a 6-sample signal, window 4, hop 2 (two complete
frames), both output samples of the first hop are zero before normalization
even though every frame contributes all-ones. -/
theorem claim_C10_first_hop_zero_witness :
    2 ≤ nFrameZ 6 4 2
    ∧ ((∀ i < 2, vpPreNorm (fun _ => [1, 1, 1, 1]) 6 4 2 i = 0)
        ∧ 0 ∉ mRange 6 4 2 ∧ mRange 6 4 2 ≠ []
        ∧ vpShiftDefault = 160 ∧ vpWinlenDefault = 320) :=
  ⟨by with_unfolding_all decide,
   claim_C10_first_hop_zero (fun _ => [1, 1, 1, 1]) 6 4 2 (by with_unfolding_all decide)⟩

/-- The rotated pole angle of `vp_baseline2`:
`new_angles = np.angle(poles[...])**mcadams`, then values `>= pi` are set to
`pi` and values `<= 0` are set to `0` (lines 196-200). -/
noncomputable def newAngle (coef θ : ℝ) : ℝ :=
  let a := θ ^ coef
  let b := if a ≥ Real.pi then Real.pi else a
  if b ≤ 0 then 0 else b

/-- The pole-pair rotation of lines 204-208: the representative pole `p` of a
conjugate pair moves to `|p| * exp(i*newAngle)`, its partner `q` to
`|q| * exp(-i*newAngle)`, with the angle computed from `p`. -/
noncomputable def rotatePolePair (coef : ℝ) (p q : ℂ) : ℂ × ℂ :=
  (((Complex.abs p : ℝ) : ℂ) * Complex.exp (Complex.I * ((newAngle coef p.arg : ℝ) : ℂ)),
   ((Complex.abs q : ℝ) : ℂ) * Complex.exp (-(Complex.I * ((newAngle coef p.arg : ℝ) : ℂ))))

theorem newAngle_eq_self {θ : ℝ} (h0 : 0 ≤ θ) (hpi : θ ≤ Real.pi) : newAngle 1 θ = θ := by
  unfold newAngle
  rw [Real.rpow_one]
  dsimp only
  by_cases h1 : θ ≥ Real.pi
  · rw [if_pos h1, if_neg (by linarith [Real.pi_pos])]
    linarith
  · rw [if_neg h1]
    by_cases h2 : θ ≤ 0
    · rw [if_pos h2]; linarith
    · rw [if_neg h2]

theorem newAngle_mem_clamp (coef θ : ℝ) :
    0 ≤ newAngle coef θ ∧ newAngle coef θ ≤ Real.pi := by
  unfold newAngle
  dsimp only
  constructor
  · split_ifs <;> linarith [Real.pi_pos]
  · split_ifs <;> linarith [Real.pi_pos]

/-- C8: with `coef = 1` the pole-rotation step of the McAdams transform is the
identity on each conjugate pole pair whose representative has a non-negative
angle (the convention for the first pole of a detected conjugate pair):
the rotated angle equals the original angle, the pole and its conjugate are
returned unchanged, pole magnitudes are unchanged for every coefficient, and
rotated angles are always clamped into `[0, π]`. -/
theorem claim_C8_mcadams_identity (p : ℂ) (hp : p ≠ 0) (harg : 0 ≤ p.arg) :
    newAngle 1 p.arg = p.arg
    ∧ rotatePolePair 1 p ((starRingEnd ℂ) p) = (p, (starRingEnd ℂ) p)
    ∧ (∀ coef θ, 0 ≤ newAngle coef θ ∧ newAngle coef θ ≤ Real.pi)
    ∧ (∀ coef q, Complex.abs (rotatePolePair coef p q).1 = Complex.abs p) := by
  have hle : p.arg ≤ Real.pi := Complex.arg_le_pi p
  have hna : newAngle 1 p.arg = p.arg := newAngle_eq_self harg hle
  refine ⟨hna, ?_, newAngle_mem_clamp, ?_⟩
  · unfold rotatePolePair
    rw [hna, Prod.mk.injEq]
    constructor
    · rw [mul_comm Complex.I]
      exact Complex.abs_mul_exp_arg_mul_I p
    · rw [show -(Complex.I * ((p.arg : ℝ) : ℂ)) = ((p.arg : ℝ) : ℂ) * -Complex.I by ring]
      conv_rhs => rw [← Complex.abs_mul_exp_arg_mul_I p]
      rw [map_mul, Complex.conj_ofReal, ← Complex.exp_conj, map_mul, Complex.conj_I,
        Complex.conj_ofReal, Complex.abs_conj]
  · intro coef q
    unfold rotatePolePair
    dsimp only
    rw [map_mul, Complex.abs_ofReal, abs_of_nonneg (Complex.abs.nonneg p),
      mul_comm Complex.I, Complex.abs_exp_ofReal_mul_I, mul_one]

/-- Witness for C8: the concrete pole `i` (magnitude 1, angle `π/2`) is left
unchanged along with its conjugate by the `coef = 1` rotation. -/
theorem claim_C8_mcadams_identity_witness :
    Complex.I ≠ 0 ∧ 0 ≤ Complex.I.arg
    ∧ (newAngle 1 Complex.I.arg = Complex.I.arg
        ∧ rotatePolePair 1 Complex.I ((starRingEnd ℂ) Complex.I)
            = (Complex.I, (starRingEnd ℂ) Complex.I)
        ∧ (∀ coef θ, 0 ≤ newAngle coef θ ∧ newAngle coef θ ≤ Real.pi)
        ∧ (∀ coef q, Complex.abs (rotatePolePair coef Complex.I q).1
            = Complex.abs Complex.I)) :=
  ⟨Complex.I_ne_zero, by rw [Complex.arg_I]; positivity,
   claim_C8_mcadams_identity Complex.I Complex.I_ne_zero (by rw [Complex.arg_I]; positivity)⟩

/-- Sum of squares (squared L2 norm) of a rational signal. -/
def sumSq (l : List ℚ) : ℚ := (l.map (fun v => v * v)).sum

/-- Sum of squares of a real signal. -/
noncomputable def sumSqR (l : List ℝ) : ℝ := (l.map (fun v => v * v)).sum

/-- `np.amin` over a non-empty sample list. -/
def listMin : List ℚ → ℚ
  | [] => 0
  | x :: xs => xs.foldl min x

/-- `np.amax` over a non-empty sample list. -/
def listMax : List ℚ → ℚ
  | [] => 0
  | x :: xs => xs.foldl max x

/-- The histogram range of `np.histogram(a, 1000)`: `(min, max)` of the data,
expanded to `(v - 0.5, v + 0.5)` when all values coincide and defaulting to
`(0, 1)` on empty input, exactly as numpy's `_get_outer_edges`. -/
def histRange (a : List ℚ) : ℚ × ℚ :=
  if a.isEmpty then (0, 1)
  else if listMin a = listMax a then (listMin a - 1 / 2, listMax a + 1 / 2)
  else (listMin a, listMax a)

/-- The bin a value falls into: 1000 equal half-open bins over the range, the
last bin closed (numpy clamps the top value into bin `n-1`). -/
def binIndex (lo hi : ℚ) (n : ℕ) (v : ℚ) : ℕ :=
  min (Rat.floor ((v - lo) / (hi - lo) * n)).toNat (n - 1)

/-- `np.cumsum(hist)[j]`: since `hist[i]` counts the samples with bin index
`i`, the cumulative sum at `j` is the number of samples with bin index ≤ `j`. -/
def cumCount (a : List ℚ) (lo hi : ℚ) (n : ℕ) (j : ℕ) : ℕ :=
  (a.filter (fun v => decide (binIndex lo hi n v ≤ j))).length

/-- The data-dependent clipping threshold of `clipping` (lines 260-262):
`bins[np.where(cumsum >= clamp(thresh)*amax(cumsum))[0][0]]`. The cumulative
histogram is non-decreasing and ends at the sample count, so
`np.amax(np.cumsum(hist))` is the length of `a`; because the clamped
threshold is ≤ 1 the first qualifying index always exists (the `none` branch
is unreachable and mirrors the `IndexError` that cannot fire). -/
def absThresh (x : List ℚ) (thresh : ℚ) : ℚ :=
  let a := x.map (fun v => |v|)
  let r := histRange a
  let q := min (max 0 thresh) 1
  match (List.range 1000).find?
      (fun j => decide ((q * (a.length : ℚ)) ≤ (cumCount a r.1 r.2 1000 j : ℚ))) with
  | some j => r.1 + (r.2 - r.1) * (j : ℚ) / 1000
  | none => 0

/-- `np.clip(x, -abs_thresh, abs_thresh)` elementwise:
`minimum(a_max, maximum(a_min, x))`. -/
def clippedList (x : List ℚ) (t : ℚ) : List ℚ := x.map (fun v => min t (max (-t) v))

/-- `clipping` from `voice_modification.py` (lines 256-269): clip at the
histogram threshold, then rescale by `sqrt(sum(x*x))/sqrt(sum(y*y))`; the
`np.divide(..., out=zeros, where=denominator != 0)` guard turns the scale
factor into 0 when the clipped signal is silent. -/
noncomputable def clipping (x : List ℚ) (thresh : ℚ) : List ℝ :=
  let t := absThresh x thresh
  let y := clippedList x t
  if sumSq y = 0 then y.map (fun v : ℚ => (v : ℝ) * 0)
  else y.map (fun v : ℚ => (v : ℝ) * (Real.sqrt (sumSq x) / Real.sqrt (sumSq y)))

/-- `modspec_smoothing` (lines 238-253) at the level the claim addresses:
`resynth` stands for the STFT → log-magnitude → zero-phase Butterworth
trajectory smoothing → exp → inverse-STFT chain (all third-party
librosa/scipy numerics), and the final line rescales the resynthesized signal
by `sqrt(sum(x*x))/sqrt(sum(y*y))` with NO zero-guard: when the denominator
is zero the float division yields NaN elementwise, modelled as `none`. -/
noncomputable def modspec_smoothing (resynth : List ℚ → List ℚ) (x : List ℚ) :
    Option (List ℝ) :=
  let y := resynth x
  if sumSq y = 0 then none
  else some (y.map (fun v : ℚ => (v : ℝ) * (Real.sqrt (sumSq x) / Real.sqrt (sumSq y))))

theorem sumSq_nonneg (l : List ℚ) : 0 ≤ sumSq l := by
  refine List.sum_nonneg ?_
  intro v hv
  obtain ⟨w, _, rfl⟩ := List.mem_map.mp hv
  exact mul_self_nonneg w

theorem sumSqR_map_scale (l : List ℚ) (c : ℝ) :
    sumSqR (l.map (fun v : ℚ => (v : ℝ) * c)) = ((sumSq l : ℚ) : ℝ) * (c * c) := by
  induction l with
  | nil => simp [sumSqR, sumSq]
  | cons v t ih =>
    simp only [List.map_cons, sumSqR, sumSq, List.sum_cons] at ih ⊢
    rw [ih]
    push_cast
    ring

theorem scale_sq_cancel {Sx Sy : ℚ} (hx : 0 ≤ Sx) (hy0 : 0 ≤ Sy) (hy : Sy ≠ 0) :
    ((Sy : ℝ)) * ((Real.sqrt Sx / Real.sqrt Sy) * (Real.sqrt Sx / Real.sqrt Sy))
      = ((Sx : ℚ) : ℝ) := by
  have hxr : (0 : ℝ) ≤ (Sx : ℝ) := by exact_mod_cast hx
  have hyr : (0 : ℝ) < (Sy : ℝ) := by
    have : (0 : ℝ) ≤ (Sy : ℝ) := by exact_mod_cast hy0
    rcases lt_or_eq_of_le this with h | h
    · exact h
    · exact absurd (by exact_mod_cast h.symm) hy
  rw [div_mul_div_comm, Real.mul_self_sqrt hxr, Real.mul_self_sqrt (le_of_lt hyr)]
  field_simp

/-- C7 (amended): `clipping` preserves the squared L2 norm exactly whenever
the clipped signal is not all-zero, and its explicit zero-guard substitutes
silence (not NaN/Inf) when the clipped signal is all-zero — which can happen
even for a non-silent input (see the counterexample). `modspec_smoothing` has
NO zero-guard: it preserves the norm when the resynthesized signal is
non-zero, but on a zero-norm denominator its unguarded division produces NaN
(`none`), not a silent result. -/
theorem claim_C7_energy_rescale :
    (∀ (x : List ℚ) (thresh : ℚ), sumSq (clippedList x (absThresh x thresh)) ≠ 0 →
      sumSqR (clipping x thresh) = ((sumSq x : ℚ) : ℝ))
    ∧ (∀ (x : List ℚ) (thresh : ℚ), sumSq (clippedList x (absThresh x thresh)) = 0 →
      clipping x thresh = (clippedList x (absThresh x thresh)).map (fun _ => (0 : ℝ)))
    ∧ (∀ (resynth : List ℚ → List ℚ) (x : List ℚ), sumSq (resynth x) ≠ 0 →
      ∃ y, modspec_smoothing resynth x = some y ∧ sumSqR y = ((sumSq x : ℚ) : ℝ))
    ∧ (∀ (resynth : List ℚ → List ℚ) (x : List ℚ), sumSq (resynth x) = 0 →
      modspec_smoothing resynth x = none) := by
  refine ⟨?_, ?_, ?_, ?_⟩
  · intro x thresh h
    unfold clipping
    rw [if_neg h, sumSqR_map_scale]
    exact scale_sq_cancel (sumSq_nonneg x) (sumSq_nonneg _) h
  · intro x thresh h
    unfold clipping
    rw [if_pos h]
    simp
  · intro resynth x h
    unfold modspec_smoothing
    rw [if_neg h]
    refine ⟨_, rfl, ?_⟩
    rw [sumSqR_map_scale]
    exact scale_sq_cancel (sumSq_nonneg x) (sumSq_nonneg _) h
  · intro resynth x h
    unfold modspec_smoothing
    rw [if_pos h]

/-- Counterexample to C7 as stated: for the non-silent input `[0, 0, 1]` at
the default `thresh = 0.5`, the derived histogram threshold is 0, the clipped
signal is all-zero, and the guarded rescale outputs exact silence — the
output's L2 norm is 0 while the input's is 1, so the norms differ by far more
than floating-point tolerance. -/
theorem claim_C7_energy_rescale_counterexample :
    absThresh [0, 0, 1] (1 / 2) = 0
    ∧ clipping [0, 0, 1] (1 / 2) = [(0 : ℝ), 0, 0]
    ∧ sumSq [0, 0, 1] = 1
    ∧ sumSqR (clipping [0, 0, 1] (1 / 2)) = 0 := by
  have ht : absThresh [0, 0, 1] (1 / 2) = 0 := by with_unfolding_all decide
  have hcl : clippedList [0, 0, 1] (absThresh [0, 0, 1] (1 / 2)) = [0, 0, 0] := by
    rw [ht]
    with_unfolding_all decide
  have hs : sumSq (clippedList [0, 0, 1] (absThresh [0, 0, 1] (1 / 2))) = 0 := by
    rw [hcl]
    with_unfolding_all decide
  have hclip : clipping [0, 0, 1] (1 / 2) = [(0 : ℝ), 0, 0] := by
    unfold clipping
    rw [if_pos hs, hcl]
    norm_num
  refine ⟨ht, hclip, by with_unfolding_all decide, ?_⟩
  rw [hclip]
  show (0 : ℝ) * 0 + (0 * 0 + (0 * 0 + 0)) = 0
  norm_num

/-- Witness for C7 (amended): concrete instances of all four conjuncts — a
non-degenerate clip (`x = [1,1]`) preserving the squared norm 2, the
degenerate clip `[0,0,1]` collapsing to silence, and `modspec` on `[1]`
(norm preserved) and on `[0]` (NaN, i.e. `none`), with the resynthesis chain
instantiated to the identity. -/
theorem claim_C7_energy_rescale_witness :
    (sumSq (clippedList [1, 1] (absThresh [1, 1] (1 / 2))) ≠ 0
      ∧ sumSqR (clipping [1, 1] (1 / 2)) = ((sumSq [1, 1] : ℚ) : ℝ))
    ∧ (sumSq (clippedList [0, 0, 1] (absThresh [0, 0, 1] (1 / 2))) = 0
      ∧ clipping [0, 0, 1] (1 / 2)
          = (clippedList [0, 0, 1] (absThresh [0, 0, 1] (1 / 2))).map (fun _ => (0 : ℝ)))
    ∧ (sumSq (id ([1] : List ℚ)) ≠ 0
      ∧ ∃ y, modspec_smoothing id [1] = some y ∧ sumSqR y = ((sumSq [1] : ℚ) : ℝ))
    ∧ (sumSq (id ([0] : List ℚ)) = 0 ∧ modspec_smoothing id [0] = none) :=
  ⟨⟨by with_unfolding_all decide,
    claim_C7_energy_rescale.1 [1, 1] (1 / 2) (by with_unfolding_all decide)⟩,
   ⟨by with_unfolding_all decide,
    claim_C7_energy_rescale.2.1 [0, 0, 1] (1 / 2) (by with_unfolding_all decide)⟩,
   ⟨by with_unfolding_all decide,
    claim_C7_energy_rescale.2.2.1 id [1] (by with_unfolding_all decide)⟩,
   ⟨by with_unfolding_all decide,
    claim_C7_energy_rescale.2.2.2 id [0] (by with_unfolding_all decide)⟩⟩
